import Mathlib

/-!
Verification of the `ipm` package manager core against its specification.

The development shallowly embeds the Go implementation:

* `pkg/solver/solver.go` — the dependency resolver (`Solver.AddPackage`),
  embedded as a fuel-indexed worklist interpreter `Ipm.solveGo` whose task
  list mirrors the recursive call stack of `AddPackage` in depth-first,
  left-to-right order.  Go maps are embedded as association lists; the list
  order stands for the (unspecified) Go map iteration order.
* `pkg/installer/installer.go` — `parsePackageSpec`, `verifyTarball`, the
  installed-map guards of `Install` / `installCachedDep`, embedded below.
* `pkg/cache/cache.go` — `Cache.Store` (tar extraction into the cache) and
  `Cache.Link` (symlink projection), embedded as pure state transformers.
* `pkg/registry/registry.go` — `NPMRegistry.ResolveVersion`, embedded over
  abstract semantic-version operations (the Masterminds semver library is
  external to the repository and enters only through its interface).
-/

namespace Ipm

/-! ## Registry snapshots

`registry.Registry` is an interface with two operations.  A fixed registry
snapshot is embedded as two finite tables; `resolve` and `fetch` are the
lookups the solver and installer perform against it. -/

/-- A package record: `types.Package` (name, version, dependency map).
The dependency map is carried as an association list; the list order is the
iteration order a Go `range` loop over the map would observe. -/
structure Pkg where
  name : String
  version : String
  deps : List (String × String)
deriving DecidableEq, Repr

/-- A registry snapshot: `ResolveVersion` answers keyed by (name, range) and
`FetchPackageTarball` metadata answers keyed by (name, version). -/
structure Registry where
  resolveTab : List ((String × String) × String)
  fetchTab : List ((String × String) × Pkg)
deriving DecidableEq, Repr

/-- `NPMRegistry.ResolveVersion` against the snapshot (`None` = error). -/
def Registry.resolve (r : Registry) (name rng : String) : Option String :=
  r.resolveTab.lookup (name, rng)

/-- `NPMRegistry.FetchPackageTarball` metadata against the snapshot. -/
def Registry.fetch (r : Registry) (name version : String) : Option Pkg :=
  r.fetchTab.lookup (name, version)

/-! ## Solver (`pkg/solver/solver.go`) -/

/-- `solver.DependencyNode`. -/
structure DepNode where
  name : String
  version : String
  deps : List (String × String)
deriving DecidableEq, Repr

/-- `solver.Conflict`. -/
structure Conflict where
  pkg : String
  versions : List String
  dependents : List String
deriving DecidableEq, Repr

/-- The mutable state of `solver.Solver`: the `nodes` map (keyed by
`name@version`, kept in insertion order) and the `conflicts` slice. -/
structure SolverSt where
  nodes : List (String × DepNode)
  conflicts : List Conflict
deriving DecidableEq, Repr

/-- The conflict scan of `AddPackage` (solver.go lines 53-61): for every
existing node with the same name and a different version, a conflict record
`{name, [old, new], [oldKey, newKey]}` is appended. -/
def scanConflicts (nodes : List (String × DepNode)) (name version key : String) :
    List Conflict :=
  nodes.filterMap fun p =>
    if p.2.name = name ∧ p.2.version ≠ version then
      some ⟨name, [p.2.version, version], [p.1, key]⟩
    else none

/-- `Solver.AddPackage` (solver.go lines 33-77) as a fuel-indexed worklist
interpreter.  The task list is the stack of pending `AddPackage` calls in
depth-first order: one step resolves the version, returns early if the
`name@version` key is already present, otherwise fetches the metadata,
appends the conflict scan, inserts the node and pushes the dependency list
(in its map-iteration order) in front of the remaining tasks.  A `some`
second component is the propagated Go error; fuel exhaustion is an artifact
of the embedding and also reported as an error. -/
def solveGo (reg : Registry) : Nat → SolverSt → List (String × String) →
    SolverSt × Option String
  | _, s, [] => (s, none)
  | 0, s, _ :: _ => (s, some "out of fuel")
  | fuel + 1, s, (name, rng) :: rest =>
    match reg.resolve name rng with
    | none => (s, some ("failed to resolve " ++ name ++ "@" ++ rng))
    | some version =>
      let key := name ++ "@" ++ version
      if (s.nodes.lookup key).isSome then
        solveGo reg fuel s rest
      else
        match reg.fetch name version with
        | none => (s, some ("failed to fetch " ++ key))
        | some pkg =>
          let s1 : SolverSt :=
            ⟨s.nodes ++ [(key, ⟨name, version, pkg.deps⟩)],
             s.conflicts ++ scanConflicts s.nodes name version key⟩
          solveGo reg fuel s1 (pkg.deps ++ rest)

/-- The empty solver state (`solver.NewSolver`). -/
def emptySolver : SolverSt := ⟨[], []⟩

/-! Concrete registry used to exercise the solver: `a@1` depends on `b` (as
`b@1`) and `c`; `c@1` depends on `b` again, pinned to `b@2`; `b@2` in turn
depends on `d`. -/

/-- Snapshot with a transitive single-version conflict on `b`. -/
def regC1 : Registry :=
  { resolveTab :=
      [(("a", "ra"), "1"), (("b", "rb1"), "1"), (("b", "rb2"), "2"),
       (("c", "rc"), "1"), (("d", "rd"), "1")]
    fetchTab :=
      [(("a", "1"), ⟨"a", "1", [("b", "rb1"), ("c", "rc")]⟩),
       (("b", "1"), ⟨"b", "1", []⟩),
       (("b", "2"), ⟨"b", "2", [("d", "rd")]⟩),
       (("c", "1"), ⟨"c", "1", [("b", "rb2")]⟩),
       (("d", "1"), ⟨"d", "1", []⟩)] }

/-- The solver state after resolving `a@ra` against `regC1`. -/
def solveC1 : SolverSt := (solveGo regC1 10 emptySolver [("a", "ra")]).1

/-! Snapshots for the determinism claim: `regD1` and `regD2` carry the same
finite maps, but the dependency map of `r@1` is iterated in the two possible
orders.  `x@1` pins `z` to `z@1`, `y@1` pins `z` to `z@2`. -/

/-- Snapshot in which `r@1`'s dependency map is iterated as `x` then `y`. -/
def regD1 : Registry :=
  { resolveTab :=
      [(("r", "rr"), "1"), (("x", "rx"), "1"), (("y", "ry"), "1"),
       (("z", "z1"), "1"), (("z", "z2"), "2")]
    fetchTab :=
      [(("r", "1"), ⟨"r", "1", [("x", "rx"), ("y", "ry")]⟩),
       (("x", "1"), ⟨"x", "1", [("z", "z1")]⟩),
       (("y", "1"), ⟨"y", "1", [("z", "z2")]⟩),
       (("z", "1"), ⟨"z", "1", []⟩),
       (("z", "2"), ⟨"z", "2", []⟩)] }

/-- The same snapshot with `r@1`'s dependency map iterated as `y` then `x`. -/
def regD2 : Registry :=
  { resolveTab :=
      [(("r", "rr"), "1"), (("x", "rx"), "1"), (("y", "ry"), "1"),
       (("z", "z1"), "1"), (("z", "z2"), "2")]
    fetchTab :=
      [(("r", "1"), ⟨"r", "1", [("y", "ry"), ("x", "rx")]⟩),
       (("x", "1"), ⟨"x", "1", [("z", "z1")]⟩),
       (("y", "1"), ⟨"y", "1", [("z", "z2")]⟩),
       (("z", "1"), ⟨"z", "1", []⟩),
       (("z", "2"), ⟨"z", "2", []⟩)] }

/-- Two registry snapshots describe the same fixed registry when their
resolution tables agree and their metadata tables agree up to the order in
which each package's dependency map is iterated (Go map iteration order is
unspecified, so one snapshot admits any of these orders on a given run). -/
def SameSnapshot (r1 r2 : Registry) : Prop :=
  r1.resolveTab = r2.resolveTab ∧
  List.Forall₂
    (fun a b => a.1 = b.1 ∧ a.2.name = b.2.name ∧ a.2.version = b.2.version ∧
      a.2.deps.Perm b.2.deps)
    r1.fetchTab r2.fetchTab

/-! ## `parsePackageSpec` (installer.go lines 566-574)

The Go function iterates over the runes of the spec and, at the first `'@'`,
returns the text before it and the text after it; with no `'@'` it returns
the whole spec and the empty version.  `ppsAux` is that loop: it returns the
split at the first `'@'`, or `none` when there is none. -/

/-- The rune loop of `parsePackageSpec`: split at the first `'@'`. -/
def ppsAux : List Char → Option (List Char × List Char)
  | [] => none
  | c :: rest =>
    if c = '@' then some ([], rest)
    else
      match ppsAux rest with
      | some (pre, post) => some (c :: pre, post)
      | none => none

/-- `parsePackageSpec(spec) → (name, version)`. -/
def parsePackageSpec (s : String) : String × String :=
  match ppsAux s.data with
  | some (pre, post) => (⟨pre⟩, ⟨post⟩)
  | none => (s, "")

/-- The caller's defaulting (installer.go lines 79-82): an empty parsed
version becomes `"latest"`. -/
def installSpecTarget (s : String) : String × String :=
  let p := parsePackageSpec s
  (p.1, if p.2 = "" then "latest" else p.2)

/-! ## `NPMRegistry.ResolveVersion` (registry.go lines 119-211)

The HTTP fetch and JSON decode yield a package document with a `versions`
map (only its keys are used, listed here in map iteration order) and a
`dist-tags` map.  The semantic-version library (Masterminds semver) is
external to the repository; its operations enter as parameters:
`parseVer` = `semver.NewVersion`, `parseCon` = `semver.NewConstraint`,
`chk` = `Constraint.Check`, `gtV` = `Version.GreaterThan`.  A resolved
version is returned as `latest.Original()`, i.e. as the original key
string, which the embedding keeps alongside the parsed version. -/

/-- The decoded registry document for one package. -/
structure PkgDoc where
  versions : List String
  distTags : List (String × String)
deriving DecidableEq, Repr

/-- The selection loop of `ResolveVersion` (registry.go lines 184-195):
skip unparsable keys, and keep the first satisfying version that is
strictly greater than the current best (or the first satisfying one). -/
def rvLoop {V C : Type} (parseVer : String → Option V) (chk : C → V → Bool)
    (gtV : V → V → Bool) (c : C) :
    List String → Option (String × V) → Option (String × V)
  | [], acc => acc
  | s :: rest, acc =>
    match parseVer s with
    | none => rvLoop parseVer chk gtV c rest acc
    | some v =>
      if chk c v then
        match acc with
        | none => rvLoop parseVer chk gtV c rest (some (s, v))
        | some (bs, bv) =>
          if gtV v bv then rvLoop parseVer chk gtV c rest (some (s, v))
          else rvLoop parseVer chk gtV c rest (some (bs, bv))
      else rvLoop parseVer chk gtV c rest acc

/-- `ResolveVersion(name, versionRange)` given the fetched document:
`"latest"` is answered from `dist-tags`, any other range through the
constraint parser and the selection loop. -/
def resolveVersion {V C : Type} (parseVer : String → Option V)
    (parseCon : String → Option C) (chk : C → V → Bool) (gtV : V → V → Bool)
    (doc : PkgDoc) (rng : String) : Except String String :=
  if rng = "latest" then
    match doc.distTags.lookup "latest" with
    | some latest => .ok latest
    | none => .error "no latest dist-tag"
  else
    match parseCon rng with
    | none => .error "invalid version range"
    | some c =>
      match rvLoop parseVer chk gtV c doc.versions none with
      | some (s, _) => .ok s
      | none => .error "no version found matching range"

/-- Concrete semver stand-in for witnesses: versions are naturals, parsed
from a small table of digit strings. -/
def natParseV (s : String) : Option Nat :=
  if s = "1" then some 1
  else if s = "2" then some 2
  else if s = "3" then some 3
  else if s = "9" then some 9
  else none

/-- Concrete constraint stand-in: a lower bound, written as a natural. -/
def natParseC (s : String) : Option Nat := natParseV s

/-- Containment for the stand-in: the bound is at most the version. -/
def natChk (c v : Nat) : Bool := decide (c ≤ v)

/-- Strict ordering for the stand-in. -/
def natGt (a b : Nat) : Bool := decide (b < a)

/-- Concrete package document: versions `1`, `3`, `2` plus an unparsable
key, and `dist-tags.latest = "9"`. -/
def docW : PkgDoc := ⟨["1", "3", "2", "beta"], [("latest", "9")]⟩

/-! ## Signature layer (`signPackage`, cmd/ipm/package.go lines 77-179, and
`verifyTarball`, installer.go lines 265-356)

Archives are byte strings; the gzip+tar codec (Go standard library, external
to the repository) enters as a pair of functions `enc`/`dec` between entry
lists and bytes, and RSA-PKCS1v1.5/SHA-256 enter as an abstract signing
scheme and hash.  `signPackage` signs the SHA-256 of the ORIGINAL archive
bytes (package.go lines 102-109), then re-streams the decoded entries
through a fresh gzip+tar writer and appends the `signature.sig` member.
`verifyTarball` re-serializes the entries with `signature.sig` removed and
verifies the signature against the hash of that re-serialized archive. -/

/-- Archive bytes. -/
abbrev Bytes := List Nat

/-- One tar member: name and body. -/
structure TarEnt where
  name : String
  body : Bytes
deriving DecidableEq, Repr

/-- The gzip+tar codec: serialize and deserialize an entry list. -/
structure Codec where
  enc : List TarEnt → Bytes
  dec : Bytes → List TarEnt

/-- An RSA signing scheme over digests: `sign sk digest` and
`verify pk digest signature` (the argument order of `rsa.VerifyPKCS1v15`). -/
structure RsaSig where
  sign : Nat → Bytes → Bytes
  verify : Nat → Bytes → Bytes → Bool

/-- The entries with the `signature.sig` member removed (the re-serialized
"unsigned" archive both sign and verify loops build). -/
def stripSig (es : List TarEnt) : List TarEnt :=
  es.filter fun e => !(e.name == "signature.sig")

/-- The signature read by the verify loop: each `signature.sig` member
overwrites the previous one, so the last such member wins. -/
def lastSig (es : List TarEnt) : Option Bytes :=
  es.foldl (fun acc e => if e.name == "signature.sig" then some e.body else acc) none

/-- `signPackage`: sign SHA-256 of the original archive bytes, re-stream
the entries, append `signature.sig` as the last member. -/
def signPackage (Cd : Codec) (R : RsaSig) (hash : Bytes → Bytes) (sk : Nat)
    (a : Bytes) : Bytes :=
  Cd.enc (Cd.dec a ++ [⟨"signature.sig", R.sign sk (hash a)⟩])

/-- Outcome of `verifyTarball`: nil with a verified signature, nil with a
warning for an unsigned archive, or a fatal verification error. -/
inductive VerifyOut
  | verified
  | unsigned
  | badSignature
deriving DecidableEq, Repr

/-- `verifyTarball`: split off `signature.sig`, re-serialize the rest, and
verify the signature over the SHA-256 of the re-serialized bytes. -/
def verifyTarball (Cd : Codec) (R : RsaSig) (hash : Bytes → Bytes) (pk : Nat)
    (b : Bytes) : VerifyOut :=
  let es := Cd.dec b
  match lastSig es with
  | none => .unsigned
  | some sig =>
    if R.verify pk (hash (Cd.enc (stripSig es))) sig then .verified
    else .badSignature

/-- The verification step of `Installer.Install` (installer.go lines 62-66
and 156-165): with no public key configured the verify call is not made at
all; with one, `verifyTarball`'s nil results (verified or unsigned-warning)
let installation proceed and its error is returned.  The boolean records
whether verification was performed. -/
def installVerifyStep (Cd : Codec) (R : RsaSig) (hash : Bytes → Bytes)
    (pubKey : Option Nat) (tarball : Bytes) : Bool × Option String :=
  match pubKey with
  | none => (false, none)
  | some pk =>
    match verifyTarball Cd R hash pk tarball with
    | .badSignature => (true, some "package signature verification failed")
    | _ => (true, none)

/-- Toy codec for witnesses: names are coded as `1` (`signature.sig`) or
`2` (`file.txt`); each entry is serialized as name code, body length, body.
The decoder skips leading zero padding, so a padded archive decodes to the
same entries but does not re-serialize to the same bytes — the same shape
of divergence a re-compressed gzip stream exhibits. -/
def nameCode (n : String) : Nat := if n = "signature.sig" then 1 else 2

/-- Inverse name coding for the toy codec. -/
def codeName (k : Nat) : String := if k = 1 then "signature.sig" else "file.txt"

/-- Toy serializer. -/
def toyEnc (es : List TarEnt) : Bytes :=
  es.flatMap fun e => nameCode e.name :: e.body.length :: e.body

/-- Toy entry parser (fuel-indexed). -/
def toyParse : Nat → Bytes → List TarEnt
  | 0, _ => []
  | _ + 1, [] => []
  | _ + 1, [_] => []
  | fuel + 1, k :: len :: rest => ⟨codeName k, rest.take len⟩ :: toyParse fuel (rest.drop len)

/-- Toy deserializer: drop leading zero padding, then parse. -/
def toyDec (bs : Bytes) : List TarEnt := toyParse bs.length (bs.dropWhile (· == 0))

/-- The toy codec. -/
def toyCodec : Codec := ⟨toyEnc, toyDec⟩

/-- Toy signing scheme: a signature is the digest with the key appended;
verification checks exactly that, so matching keys verify and any digest
mismatch fails. -/
def toyRsa : RsaSig := ⟨fun sk h => h ++ [sk], fun pk h s => s == h ++ [pk]⟩

/-- A canonical archive: one `file.txt` entry, serialized by the codec
itself (so re-serialization reproduces it). -/
def aCanon : Bytes := toyEnc [⟨"file.txt", [5]⟩]

/-- The same archive with one byte of leading padding: it decodes to the
same entries but re-serializes to `aCanon`, not to itself. -/
def aShift : Bytes := 0 :: aCanon

/-! ## Cache extraction (`Cache.Store`, cache.go lines 53-128)

Tar member names are slash-separated; they are embedded as component
lists.  `Store` joins `filepath.Join(pkgPath, strings.TrimPrefix(name,
"package/"))` — `filepath.Join` cleans the result, resolving `..` and `.`
components — and then switches on the entry type: `TypeDir` runs `MkdirAll`
(mode 0755), `TypeReg` creates the parent, writes the file and chmods it to
the header mode; the switch has no other case and no default, and no path
is checked against the destination root.  Errors in the loop are I/O
failures only, which the pure model does not produce. -/

/-- Tar entry type flags (`tar.TypeDir`, `tar.TypeReg`, and the others). -/
inductive TypeFlag
  | reg
  | dir
  | symlink
  | link
  | chr
  | blk
  | fifo
deriving DecidableEq, Repr

/-- One entry of the tarball being unpacked. -/
structure UnpackEnt where
  name : List String
  typeflag : TypeFlag
  mode : Nat
  body : Bytes
deriving DecidableEq, Repr

/-- `strings.TrimPrefix(name, "package/")` on a component list: drop a
leading `package` component when it heads a longer path (the bare name
`package` has no `package/` text to strip). -/
def dropPackageDir : List String → List String
  | "package" :: rest => if rest.isEmpty then ["package"] else rest
  | l => l

/-- `filepath.Join` cleaning on an absolute component list: empty and `.`
components vanish, `..` pops the previous component (staying at the root
when there is none). -/
def cleanAbs (l : List String) : List String :=
  l.foldl
    (fun acc c =>
      if c = "" ∨ c = "." then acc
      else if c = ".." then acc.dropLast
      else acc ++ [c])
    []

/-- Filesystem writes the extraction loop performs. -/
inductive FsAction
  | mkdirAll (p : List String) (mode : Nat)
  | writeFile (p : List String) (mode : Nat) (body : Bytes)
deriving DecidableEq, Repr

/-- The actions one tar entry produces (cache.go lines 83-108): directories
via `MkdirAll` 0755, regular files via parent `MkdirAll`, create and chmod;
every other type flag falls through the switch producing nothing. -/
def entryActions (pkgPath : List String) (e : UnpackEnt) : List FsAction :=
  let target := cleanAbs (pkgPath ++ dropPackageDir e.name)
  match e.typeflag with
  | .dir => [.mkdirAll target 493]
  | .reg => [.mkdirAll target.dropLast 493, .writeFile target e.mode e.body]
  | _ => []

/-- All actions of the extraction loop over the tarball's entries. -/
def unpackActions (pkgPath : List String) (es : List UnpackEnt) : List FsAction :=
  es.flatMap (entryActions pkgPath)

/-- Cache filesystem state: directories and files (path, mode, contents). -/
structure CacheFs where
  dirs : List (List String)
  files : List (List String × Nat × Bytes)
deriving DecidableEq, Repr

/-- Apply one write: `MkdirAll` is a no-op on an existing directory,
`Create` truncates and rewrites. -/
def applyAct (fs : CacheFs) : FsAction → CacheFs
  | .mkdirAll p _ => if fs.dirs.contains p then fs else { fs with dirs := fs.dirs ++ [p] }
  | .writeFile p m b =>
    { fs with files := fs.files.filter (fun f => !(f.1 == p)) ++ [(p, m, b)] }

/-- `Cache.Store`: when `<root>/<name>-<version>` already exists the call
returns at once with no writes (cache.go lines 57, 120-127); otherwise it
creates the directory, runs the extraction loop and writes the metadata
sidecar `<name>-<version>.json` (mode 0644, `json.Marshal` of the package,
abstracted as `marshal`).  The third component is the returned error, which
the pure model — exercising no I/O failures — never produces: the loop has
no rejection branch of its own. -/
def cacheStoreFs (marshal : Pkg → Bytes) (root : List String) (fs : CacheFs)
    (pkg : Pkg) (es : List UnpackEnt) : CacheFs × List FsAction × Option String :=
  let pkgPath := root ++ [pkg.name ++ "-" ++ pkg.version]
  if fs.dirs.contains pkgPath then (fs, [], none)
  else
    let acts := FsAction.mkdirAll pkgPath 493 ::
      (unpackActions pkgPath es ++
        [FsAction.writeFile (root ++ [pkg.name ++ "-" ++ pkg.version ++ ".json"]) 420
          (marshal pkg)])
    (acts.foldl applyAct fs, acts, none)

/-- The cache root used in concrete runs. -/
def c4root : List String := ["home", ".ipm", "cache"]

/-- A symlink tar entry. -/
def eSym : UnpackEnt := ⟨["lib-link"], .symlink, 511, []⟩

/-- A regular-file tar entry whose name climbs out of the destination. -/
def eEvil : UnpackEnt := ⟨["..", "evil"], .reg, 420, [1]⟩

/-- A directory tar entry under the conventional `package/` root. -/
def eDir : UnpackEnt := ⟨["package", "sub"], .dir, 493, []⟩

/-- A regular-file tar entry under the conventional `package/` root. -/
def eReg : UnpackEnt := ⟨["package", "f.txt"], .reg, 420, [7]⟩

/-- A concrete package reference. -/
def pkgA : Pkg := ⟨"a", "1.0", []⟩

/-- Trivial metadata serialization for concrete runs. -/
def marshal0 : Pkg → Bytes := fun _ => []

/-! ## Symlink projection (`Cache.Link`, cache.go lines 130-163)

`Link` inspects `{targetDir}/{name}` with `Lstat`.  A symlink to the cache
path is left alone; a symlink elsewhere is removed and recreated.  A path
that exists but is NOT a symlink (a regular file) is neither removed nor
replaced — the code falls through to `os.Symlink`, which fails because the
path exists.  The state of that single project path is what the embedding
tracks. -/

/-- What `{targetDir}/{name}` currently is. -/
inductive LinkPathState
  | absent
  | symlinkTo (target : String)
  | regularFile
deriving DecidableEq, Repr

/-- `Cache.Link` as a transformer of the project path's state, returning
the new state and the returned error (`os.Symlink` fails with "file
exists" when the path still exists and is not a symlink). -/
def cacheLink (cacheDir : String) (pkg : Pkg) (st : LinkPathState) :
    LinkPathState × Option String :=
  let cachedPath := cacheDir ++ "/" ++ pkg.name ++ "-" ++ pkg.version
  match st with
  | .absent => (.symlinkTo cachedPath, none)
  | .symlinkTo t =>
    if t = cachedPath then (.symlinkTo t, none)
    else (.symlinkTo cachedPath, none)
  | .regularFile => (.regularFile, some "symlink: file exists")

/-! ## Installer (`Installer.Install`, `installDependency`,
`installCachedDep`, installer.go lines 43-502)

The mutually recursive trio is embedded as one fuel-indexed worklist
interpreter `instRun` over tasks — a pending `Install` call, a pending
`installDependency` call, or a pending `installCachedDep` call — processed
depth-first left-to-right exactly as the Go call stack would.  The model
covers the registry path of `Install` (the local-tarball branch of lines
44-76 triggers only when the spec names an existing file, and the model
fixes `pubKeyFile = ""`, under which verification is skipped, per C6).
Effects record the observable cache writes (`Store` on a cache miss) and
symlink writes (`Link` when it creates or replaces); `node_modules`
creation and logging are silent.  The semver checks of `satisfiesVersion`
(installer.go lines 509-525) enter through the oracle `sat`. -/

/-- Installer-visible state: the per-invocation `installed` map, the cache
(directories keyed `name-version` plus metadata sidecars), the
`node_modules` symlinks (name to cache key), and the solver state. -/
structure InstState where
  installed : List (String × String)
  cacheDirs : List String
  cacheMeta : List (String × Pkg)
  links : List (String × String)
  solver : SolverSt
deriving DecidableEq, Repr

/-- Observable installer effects: a cache store and a symlink write. -/
inductive IEff
  | storeEff (key : String)
  | linkEff (name target : String)
deriving DecidableEq, Repr

/-- Pending calls: `Install(spec)`, `installDependency(name, range)`,
`installCachedDep(pkg)`. -/
inductive ITask
  | spec (s : String)
  | dep (name rng : String)
  | cached (pkg : Pkg)
deriving DecidableEq, Repr

/-- The cache directory key `<name>-<version>`. -/
def cacheKey (name version : String) : String := name ++ "-" ++ version

/-- `satisfiesVersion` (installer.go lines 504-526): a `latest` range never
matches; otherwise the semver library decides (`sat`, which also covers the
exact-string fallbacks for unparsable inputs). -/
def satisfiesW (sat : String → String → Bool) (v r : String) : Bool :=
  if r = "latest" then false else sat v r

/-- `Cache.HasCachedVersion`: glob `<name>-*` is non-empty. -/
def hasCachedVersion (dirs : List String) (name : String) : Bool :=
  dirs.any fun d => (name ++ "-").isPrefixOf d

/-- `Cache.GetCachedVersions`: strip `<name>-` from every glob match. -/
def getCachedVersions (dirs : List String) (name : String) : List String :=
  dirs.filterMap fun d =>
    if (name ++ "-").isPrefixOf d then some (d.drop (name.length + 1)) else none

/-- `Cache.Store` at the installer level: miss extracts (recorded as one
store effect) and writes the metadata sidecar; hit does nothing. -/
def instStore (st : InstState) (pkg : Pkg) : InstState × List IEff :=
  if st.cacheDirs.contains (cacheKey pkg.name pkg.version) then (st, [])
  else
    ({ st with
        cacheDirs := st.cacheDirs ++ [cacheKey pkg.name pkg.version],
        cacheMeta := st.cacheMeta ++ [(cacheKey pkg.name pkg.version, pkg)] },
     [.storeEff (cacheKey pkg.name pkg.version)])

/-- `Cache.Link` at the installer level on the `node_modules` map: same
target is a no-op, another target is replaced, absence creates. -/
def instLink (st : InstState) (pkg : Pkg) : InstState × List IEff :=
  let target := cacheKey pkg.name pkg.version
  match st.links.lookup pkg.name with
  | some t =>
    if t = target then (st, [])
    else
      ({ st with
          links := st.links.filter (fun q => !(q.1 == pkg.name)) ++ [(pkg.name, target)] },
       [.linkEff pkg.name target])
  | none => ({ st with links := st.links ++ [(pkg.name, target)] }, [.linkEff pkg.name target])

/-- Does the version text start with `~`, `^` or `>`? (installer.go 115) -/
def startsOp (v : String) : Bool :=
  match v.data with
  | c :: _ => c = '~' || c = '^' || c = '>'
  | [] => false

/-- The range-resolution step of `Install` (installer.go lines 115-131):
a version starting with an operator is resolved through the registry,
anything else (including `latest`) is kept as is. -/
def resolveRangeStep (reg : Registry) (name version : String) : Except String String :=
  if (version != "latest") && startsOp version then
    match reg.resolve name version with
    | some rv => .ok rv
    | none => .error "failed to resolve version"
  else .ok version

/-- The cached-version scan of `installDependency` (installer.go lines
410-428): the first cached version whose directory exists, whose metadata
loads and whose version satisfies the range. -/
def findCachedDep (sat : String → String → Bool) (st : InstState) (dn dr : String) :
    Option Pkg :=
  (getCachedVersions st.cacheDirs dn).findSome? fun v =>
    if st.cacheDirs.contains (cacheKey dn v) then
      match st.cacheMeta.lookup (cacheKey dn v) with
      | some m => if satisfiesW sat m.version dr then some m else none
      | none => none
    else none

/-- The installer as a worklist interpreter.  Each step is one call frame:
`spec` is `Install` (cache-hit redirect, solver run with conflict exit,
range resolution, installed-map guard, fetch, store, link, record, recurse
on the fetched dependencies), `dep` is `installDependency`, `cached` is
`installCachedDep`.  A returned error aborts everything pending, as the
Go error propagation does; fuel exhaustion is an embedding artifact. -/
def instRun (reg : Registry) (sat : String → String → Bool) :
    Nat → InstState → List ITask → InstState × List IEff × Option String
  | _, st, [] => (st, [], none)
  | 0, st, _ :: _ => (st, [], some "out of fuel")
  | fuel + 1, st, task :: rest =>
    match task with
    | .cached pkg =>
      match st.installed.lookup pkg.name with
      | some _ => instRun reg sat fuel st rest
      | none =>
        let r1 := instLink st pkg
        let st2 := { r1.1 with installed := r1.1.installed ++ [(pkg.name, pkg.version)] }
        let out := instRun reg sat fuel st2
          ((pkg.deps.map fun d => ITask.dep d.1 d.2) ++ rest)
        (out.1, r1.2 ++ out.2.1, out.2.2)
    | .dep dn dr =>
      let skip : Bool :=
        match st.installed.lookup dn with
        | some iv => satisfiesW sat iv dr
        | none => false
      if skip then instRun reg sat fuel st rest
      else
        let viaCache : Option Pkg :=
          if hasCachedVersion st.cacheDirs dn then findCachedDep sat st dn dr else none
        match viaCache with
        | some m => instRun reg sat fuel st (ITask.cached m :: rest)
        | none =>
          match reg.resolve dn dr with
          | none => (st, [], some "failed to resolve dependency version")
          | some rv =>
            if st.cacheDirs.contains (cacheKey dn rv) then
              match st.cacheMeta.lookup (cacheKey dn rv) with
              | some m => instRun reg sat fuel st (ITask.cached m :: rest)
              | none => instRun reg sat fuel st (ITask.spec (dn ++ "@" ++ rv) :: rest)
            else instRun reg sat fuel st (ITask.spec (dn ++ "@" ++ rv) :: rest)
    | .spec s0 =>
      let nv := parsePackageSpec s0
      let name := nv.1
      let version := if nv.2 = "" then "latest" else nv.2
      if st.cacheDirs.contains (cacheKey name version) then
        match st.cacheMeta.lookup (cacheKey name version) with
        | some m => instRun reg sat fuel st (ITask.cached m :: rest)
        | none => (st, [], some "failed to load cached metadata")
      else
        let sres := solveGo reg fuel st.solver [(name, version)]
        let st1 := { st with solver := sres.1 }
        match sres.2 with
        | some e => (st1, [], some e)
        | none =>
          if !sres.1.conflicts.isEmpty then
            (st1, [], some "exit: unresolvable dependency conflicts")
          else
            match resolveRangeStep reg name version with
            | .error e => (st1, [], some e)
            | .ok tv =>
              match st1.installed.lookup name with
              | some _ => instRun reg sat fuel st1 rest
              | none =>
                match reg.fetch name tv with
                | none => (st1, [], some "failed to fetch package tarball")
                | some fpkg =>
                  let r1 := instStore st1 fpkg
                  let r2 := instLink r1.1 fpkg
                  let st3 := { r2.1 with
                    installed := r2.1.installed ++ [(name, fpkg.version)] }
                  let out := instRun reg sat fuel st3
                    ((fpkg.deps.map fun d => ITask.dep d.1 d.2) ++ rest)
                  (out.1, r1.2 ++ r2.2 ++ out.2.1, out.2.2)

/-- Registry for the installer witness: `p@2` with no dependencies. -/
def regW : Registry :=
  { resolveTab := [(("p", "2"), "2")]
    fetchTab := [(("p", "2"), ⟨"p", "2", []⟩)] }

/-- Installer state with `p` already installed at version `1`. -/
def stW : InstState := ⟨[("p", "1")], [], [], [], emptySolver⟩

/-- Semver oracle for the installer witness (never satisfied). -/
def satW : String → String → Bool := fun _ _ => false

end Ipm

namespace Ipm

/-- Solver state components only ever grow: one run of the worklist
interpreter appends to `nodes` and `conflicts`, never removes. -/
theorem solveGo_mono (reg : Registry) :
    ∀ (fuel : Nat) (s : SolverSt) (tasks : List (String × String)),
      ∃ en ec, (solveGo reg fuel s tasks).1.nodes = s.nodes ++ en ∧
        (solveGo reg fuel s tasks).1.conflicts = s.conflicts ++ ec := by
  intro fuel
  induction fuel with
  | zero =>
    intro s tasks
    cases tasks with
    | nil => exact ⟨[], [], by simp [solveGo], by simp [solveGo]⟩
    | cons t rest => exact ⟨[], [], by simp [solveGo], by simp [solveGo]⟩
  | succ n ih =>
    intro s tasks
    match tasks with
    | [] => exact ⟨[], [], by simp [solveGo], by simp [solveGo]⟩
    | (name, rng) :: rest =>
      simp only [solveGo]
      cases hres : reg.resolve name rng with
      | none => exact ⟨[], [], by simp, by simp⟩
      | some version =>
        by_cases hk : (s.nodes.lookup (name ++ "@" ++ version)).isSome
        · simpa [hk] using ih s rest
        · simp only [hk, Bool.false_eq_true, if_false]
          cases hf : reg.fetch name version with
          | none => exact ⟨[], [], by simp, by simp⟩
          | some pkg =>
            obtain ⟨en, ec, h1, h2⟩ :=
              ih ⟨s.nodes ++ [(name ++ "@" ++ version, ⟨name, version, pkg.deps⟩)],
                  s.conflicts ++ scanConflicts s.nodes name version (name ++ "@" ++ version)⟩
                (pkg.deps ++ rest)
            exact ⟨_, _, by simpa [List.append_assoc] using h1,
              by simpa [List.append_assoc] using h2⟩

/-- C1 (amended): when `AddPackage` meets a name already pinned to a
different version, it appends one conflict record per existing node of that
name with another version, nevertheless inserts the new `name@version` node,
and recurses into the new version's dependencies; both the inserted node and
the appended conflicts persist in the final state.  Consequently the node
collection can hold several concrete versions of one name. -/
theorem addPackage_conflict_step (reg : Registry) (fuel : Nat) (s : SolverSt)
    (name rng version : String) (pkg : Pkg) (rest : List (String × String))
    (hres : reg.resolve name rng = some version)
    (hnew : (s.nodes.lookup (name ++ "@" ++ version)).isSome = false)
    (hfetch : reg.fetch name version = some pkg) :
    solveGo reg (fuel + 1) s ((name, rng) :: rest) =
      solveGo reg fuel
        ⟨s.nodes ++ [(name ++ "@" ++ version, ⟨name, version, pkg.deps⟩)],
         s.conflicts ++ scanConflicts s.nodes name version (name ++ "@" ++ version)⟩
        (pkg.deps ++ rest) ∧
    ∃ en ec,
      (solveGo reg (fuel + 1) s ((name, rng) :: rest)).1.nodes =
        s.nodes ++ [(name ++ "@" ++ version, ⟨name, version, pkg.deps⟩)] ++ en ∧
      (solveGo reg (fuel + 1) s ((name, rng) :: rest)).1.conflicts =
        s.conflicts ++ scanConflicts s.nodes name version (name ++ "@" ++ version) ++ ec := by
  have hstep : solveGo reg (fuel + 1) s ((name, rng) :: rest) =
      solveGo reg fuel
        ⟨s.nodes ++ [(name ++ "@" ++ version, ⟨name, version, pkg.deps⟩)],
         s.conflicts ++ scanConflicts s.nodes name version (name ++ "@" ++ version)⟩
        (pkg.deps ++ rest) := by
    simp [solveGo, hres, hnew, hfetch]
  refine ⟨hstep, ?_⟩
  obtain ⟨en, ec, h1, h2⟩ :=
    solveGo_mono reg fuel
      ⟨s.nodes ++ [(name ++ "@" ++ version, ⟨name, version, pkg.deps⟩)],
       s.conflicts ++ scanConflicts s.nodes name version (name ++ "@" ++ version)⟩
      (pkg.deps ++ rest)
  exact ⟨en, ec, by rw [hstep]; simpa using h1, by rw [hstep]; simpa using h2⟩

/-- C1 witness: the amended step theorem applied to the concrete snapshot
`regC1` at the root call `AddPackage("a", "ra")`. -/
theorem addPackage_conflict_step_witness :
    solveGo regC1 10 emptySolver [("a", "ra")] =
      solveGo regC1 9
        ⟨[("a@1", ⟨"a", "1", [("b", "rb1"), ("c", "rc")]⟩)], []⟩
        [("b", "rb1"), ("c", "rc")] ∧
    ∃ en ec,
      (solveGo regC1 10 emptySolver [("a", "ra")]).1.nodes =
        [] ++ [("a@1", ⟨"a", "1", [("b", "rb1"), ("c", "rc")]⟩)] ++ en ∧
      (solveGo regC1 10 emptySolver [("a", "ra")]).1.conflicts = [] ++ [] ++ ec :=
  addPackage_conflict_step regC1 9 emptySolver "a" "ra" "1"
    ⟨"a", "1", [("b", "rb1"), ("c", "rc")]⟩ [] rfl (by decide) rfl

/-- C1 counterexample: after resolving `a@ra` against `regC1` the node
collection holds two concrete versions of the package `b`, and the
conflicting version's dependency `d@1` was recursed into and resolved —
refuting both the at-most-one-version invariant and the do-not-recurse
clause of the claim. -/
theorem solver_two_versions_cex :
    (solveC1.nodes.filter (fun p => p.2.name = "b")).length = 2 ∧
    (solveC1.nodes.lookup "d@1").isSome = true := by decide

/-- C2 (amended): resolution is a pure function of the registry snapshot
together with its dependency-map iteration orders — two runs that observe
identical resolution answers, metadata and iteration orders produce
identical solver states (nodes and conflict list).  (The counterexample
shows byte-identical conflict reports are not guaranteed across different
iteration orders of the same maps.) -/
theorem solveGo_congr (r1 r2 : Registry)
    (hres : ∀ n rng, r1.resolve n rng = r2.resolve n rng)
    (hfetch : ∀ n v, r1.fetch n v = r2.fetch n v) :
    ∀ fuel s tasks, solveGo r1 fuel s tasks = solveGo r2 fuel s tasks := by
  intro fuel
  induction fuel with
  | zero =>
    intro s tasks
    cases tasks <;> rfl
  | succ n ih =>
    intro s tasks
    match tasks with
    | [] => rfl
    | (name, rng) :: rest =>
      simp only [solveGo]
      rw [← hres name rng]
      cases h : r1.resolve name rng with
      | none => rfl
      | some version =>
        by_cases hk : (s.nodes.lookup (name ++ "@" ++ version)).isSome
        · simp [hk, ih]
        · simp only [hk, Bool.false_eq_true, if_false]
          rw [← hfetch name version]
          cases hf : r1.fetch name version with
          | none => rfl
          | some pkg => simp [ih]

/-- C2 witness: the determinism-relative-to-orders theorem applied to the
concrete snapshot `regD1` against itself. -/
theorem solveGo_congr_witness :
    solveGo regD1 10 emptySolver [("r", "rr")] =
      solveGo regD1 10 emptySolver [("r", "rr")] :=
  solveGo_congr regD1 regD1 (fun _ _ => rfl) (fun _ _ => rfl) 10 emptySolver
    [("r", "rr")]

/-- C2 counterexample: `regD1` and `regD2` are the same registry snapshot
(identical maps, dependency lists equal up to permutation — i.e. two
admissible Go map iteration orders), yet the two runs produce different
conflict lists, refuting lexicographic traversal and byte-identical
conflict reports. -/
theorem solver_order_cex :
    SameSnapshot regD1 regD2 ∧
    (solveGo regD1 10 emptySolver [("r", "rr")]).1.conflicts ≠
      (solveGo regD2 10 emptySolver [("r", "rr")]).1.conflicts := by
  constructor
  · refine ⟨rfl, ?_⟩
    refine .cons ⟨rfl, rfl, rfl, List.Perm.swap _ _ _⟩ ?_
    refine .cons ⟨rfl, rfl, rfl, List.Perm.refl _⟩ ?_
    refine .cons ⟨rfl, rfl, rfl, List.Perm.refl _⟩ ?_
    refine .cons ⟨rfl, rfl, rfl, List.Perm.refl _⟩ ?_
    exact .cons ⟨rfl, rfl, rfl, List.Perm.refl _⟩ .nil
  · decide

theorem ppsAux_no_at : ∀ (l : List Char), '@' ∉ l → ppsAux l = none := by
  intro l
  induction l with
  | nil => intro _; rfl
  | cons c rest ih =>
    intro h
    have hc : c ≠ '@' := fun hc => h (hc ▸ List.mem_cons_self c rest)
    have hrest : '@' ∉ rest := fun hm => h (List.mem_cons_of_mem c hm)
    simp [ppsAux, hc, ih hrest]

theorem ppsAux_split : ∀ (a b : List Char), '@' ∉ a →
    ppsAux (a ++ '@' :: b) = some (a, b) := by
  intro a
  induction a with
  | nil => intro b _; simp [ppsAux]
  | cons c rest ih =>
    intro b h
    have hc : c ≠ '@' := fun hc => h (hc ▸ List.mem_cons_self c rest)
    have hrest : '@' ∉ rest := fun hm => h (List.mem_cons_of_mem c hm)
    simp [ppsAux, hc, ih b hrest]

/-- C10: `parsePackageSpec` splits the spec at the first `'@'`: a spec
`a ++ "@" ++ b` with `'@'` not in `a` yields `(a, b)` (so a spec beginning
with `'@'` yields an empty name); a spec without `'@'` yields the spec and
the empty version, which the caller then defaults to `"latest"`. -/
theorem parsePackageSpec_spec (a b : List Char) (ha : '@' ∉ a) :
    parsePackageSpec ⟨a ++ '@' :: b⟩ = (⟨a⟩, ⟨b⟩) ∧
    (∀ t : List Char, parsePackageSpec ⟨'@' :: t⟩ = ("", ⟨t⟩)) ∧
    (∀ s : String, '@' ∉ s.data → parsePackageSpec s = (s, "")) ∧
    (∀ s : String, '@' ∉ s.data → installSpecTarget s = (s, "latest")) := by
  refine ⟨?_, ?_, ?_, ?_⟩
  · simp [parsePackageSpec, ppsAux_split a b ha]
  · intro t
    have := ppsAux_split [] t (by simp)
    simp only [List.nil_append] at this
    simp [parsePackageSpec, this]
  · intro s hs
    simp [parsePackageSpec, ppsAux_no_at s.data hs]
  · intro s hs
    simp [installSpecTarget, parsePackageSpec, ppsAux_no_at s.data hs]

/-- C10 witness: the split theorem applied to the concrete specs
`"lodash@^4.17.0"`, `"@scope/pkg"` and `"lodash"`. -/
theorem parsePackageSpec_spec_witness :
    parsePackageSpec "lodash@^4.17.0" = ("lodash", "^4.17.0") ∧
    parsePackageSpec "@scope/pkg" = ("", "scope/pkg") ∧
    parsePackageSpec "lodash" = ("lodash", "") ∧
    installSpecTarget "lodash" = ("lodash", "latest") := by
  obtain ⟨h1, h2, h3, h4⟩ :=
    parsePackageSpec_spec "lodash".data "^4.17.0".data (by decide)
  exact ⟨h1, h2 "scope/pkg".data, h3 "lodash" (by decide),
    h4 "lodash" (by decide)⟩

/-! ### `ResolveVersion` selection-loop invariants and the C5 theorem -/

section RV

variable {V C : Type} (parseVer : String → Option V) (parseCon : String → Option C)
  (chk : C → V → Bool) (gtV : V → V → Bool) (c : C)

theorem rvLoop_none :
    ∀ (l : List String) (acc : Option (String × V)),
      rvLoop parseVer chk gtV c l acc = none →
      acc = none ∧ ∀ s ∈ l, ∀ v, parseVer s = some v → chk c v = false := by
  intro l
  induction l with
  | nil =>
    intro acc h
    simp only [rvLoop] at h
    exact ⟨h, by simp⟩
  | cons s0 rest ih =>
    intro acc h
    cases hp : parseVer s0 with
    | none =>
      simp only [rvLoop, hp] at h
      obtain ⟨hacc, hrest⟩ := ih acc h
      refine ⟨hacc, ?_⟩
      intro s' hs' v hv
      rcases List.mem_cons.mp hs' with h' | h'
      · rw [h'] at hv; rw [hv] at hp; cases hp
      · exact hrest s' h' v hv
    | some v0 =>
      cases hc : chk c v0 with
      | false =>
        simp only [rvLoop, hp, hc, Bool.false_eq_true, if_false] at h
        obtain ⟨hacc, hrest⟩ := ih acc h
        refine ⟨hacc, ?_⟩
        intro s' hs' v hv
        rcases List.mem_cons.mp hs' with h' | h'
        · rw [h'] at hv; rw [hv] at hp
          cases hp; exact hc
        · exact hrest s' h' v hv
      | true =>
        exfalso
        cases acc with
        | none =>
          simp only [rvLoop, hp, hc, if_true] at h
          exact Option.noConfusion (ih _ h).1
        | some p =>
          obtain ⟨bs, bv⟩ := p
          cases hg : gtV v0 bv with
          | true =>
            simp only [rvLoop, hp, hc, hg, if_true] at h
            exact Option.noConfusion (ih _ h).1
          | false =>
            simp only [rvLoop, hp, hc, hg, Bool.false_eq_true, if_false,
              if_true] at h
            exact Option.noConfusion (ih _ h).1

theorem rvLoop_sat_none :
    ∀ (l : List String),
      (∀ s ∈ l, ∀ v, parseVer s = some v → chk c v = false) →
      rvLoop parseVer chk gtV c l none = none := by
  intro l
  induction l with
  | nil => intro _; rfl
  | cons s0 rest ih =>
    intro h
    cases hp : parseVer s0 with
    | none =>
      simp only [rvLoop, hp]
      exact ih fun s' hs' v hv => h s' (List.mem_cons_of_mem s0 hs') v hv
    | some v0 =>
      have hc := h s0 (List.mem_cons_self s0 rest) v0 hp
      simp only [rvLoop, hp, hc, Bool.false_eq_true, if_false]
      exact ih fun s' hs' v hv => h s' (List.mem_cons_of_mem s0 hs') v hv

theorem rvLoop_acc_no_beat (hirr : ∀ a, gtV a a = false)
    (htrans : ∀ a b d, gtV a b = true → gtV b d = true → gtV a d = true) :
    ∀ (l : List String) (bs : String) (bv : V) (s : String) (v : V),
      rvLoop parseVer chk gtV c l (some (bs, bv)) = some (s, v) →
      gtV bv v = false := by
  intro l
  induction l with
  | nil =>
    intro bs bv s v h
    simp only [rvLoop, Option.some.injEq, Prod.mk.injEq] at h
    rw [← h.2]
    exact hirr bv
  | cons s0 rest ih =>
    intro bs bv s v h
    cases hp : parseVer s0 with
    | none =>
      simp only [rvLoop, hp] at h
      exact ih bs bv s v h
    | some v0 =>
      cases hc : chk c v0 with
      | false =>
        simp only [rvLoop, hp, hc, Bool.false_eq_true, if_false] at h
        exact ih bs bv s v h
      | true =>
        cases hg : gtV v0 bv with
        | true =>
          simp only [rvLoop, hp, hc, hg, if_true] at h
          have hv0 := ih s0 v0 s v h
          cases hb : gtV bv v with
          | false => rfl
          | true =>
            have h2 := htrans v0 bv v hg hb
            rw [hv0] at h2
            cases h2
        | false =>
          simp only [rvLoop, hp, hc, hg, Bool.false_eq_true, if_false,
            if_true] at h
          exact ih bs bv s v h

theorem rvLoop_mem :
    ∀ (l : List String) (acc : Option (String × V)) (s : String) (v : V),
      rvLoop parseVer chk gtV c l acc = some (s, v) →
      acc = some (s, v) ∨ (s ∈ l ∧ parseVer s = some v ∧ chk c v = true) := by
  intro l
  induction l with
  | nil =>
    intro acc s v h
    simp only [rvLoop] at h
    exact Or.inl h
  | cons s0 rest ih =>
    intro acc s v h
    cases hp : parseVer s0 with
    | none =>
      simp only [rvLoop, hp] at h
      rcases ih acc s v h with h' | ⟨hm, hv, hch⟩
      · exact Or.inl h'
      · exact Or.inr ⟨List.mem_cons_of_mem s0 hm, hv, hch⟩
    | some v0 =>
      cases hc : chk c v0 with
      | false =>
        simp only [rvLoop, hp, hc, Bool.false_eq_true, if_false] at h
        rcases ih acc s v h with h' | ⟨hm, hv, hch⟩
        · exact Or.inl h'
        · exact Or.inr ⟨List.mem_cons_of_mem s0 hm, hv, hch⟩
      | true =>
        have head : ∀ (h' : rvLoop parseVer chk gtV c rest (some (s0, v0)) = some (s, v)),
            acc = some (s, v) ∨ (s ∈ s0 :: rest ∧ parseVer s = some v ∧ chk c v = true) := by
          intro h'
          rcases ih (some (s0, v0)) s v h' with h'' | ⟨hm, hv, hch⟩
          · have h3 := Option.some.inj h''
            have hs0 : s0 = s := congrArg Prod.fst h3
            have hv0 : v0 = v := congrArg Prod.snd h3
            subst hs0
            subst hv0
            exact Or.inr ⟨List.mem_cons_self s0 rest, hp, hc⟩
          · exact Or.inr ⟨List.mem_cons_of_mem s0 hm, hv, hch⟩
        cases acc with
        | none =>
          simp only [rvLoop, hp, hc, if_true] at h
          exact head h
        | some p =>
          obtain ⟨bs, bv⟩ := p
          cases hg : gtV v0 bv with
          | true =>
            simp only [rvLoop, hp, hc, hg, if_true] at h
            exact head h
          | false =>
            simp only [rvLoop, hp, hc, hg, Bool.false_eq_true, if_false,
              if_true] at h
            rcases ih (some (bs, bv)) s v h with h' | ⟨hm, hv, hch⟩
            · exact Or.inl h'
            · exact Or.inr ⟨List.mem_cons_of_mem s0 hm, hv, hch⟩

theorem rvLoop_max (hirr : ∀ a, gtV a a = false)
    (htrans : ∀ a b d, gtV a b = true → gtV b d = true → gtV a d = true)
    (hneg : ∀ a b d, gtV a b = false → gtV b d = false → gtV a d = false) :
    ∀ (l : List String) (acc : Option (String × V)) (s : String) (v : V),
      rvLoop parseVer chk gtV c l acc = some (s, v) →
      ∀ s' v', s' ∈ l → parseVer s' = some v' → chk c v' = true →
        gtV v' v = false := by
  intro l
  induction l with
  | nil =>
    intro acc s v _ s' v' hs'
    cases hs'
  | cons s0 rest ih =>
    intro acc s v h s' v' hs' hv' hch'
    cases hp : parseVer s0 with
    | none =>
      simp only [rvLoop, hp] at h
      rcases List.mem_cons.mp hs' with h' | h'
      · rw [h'] at hv'; rw [hv'] at hp; cases hp
      · exact ih acc s v h s' v' h' hv' hch'
    | some v0 =>
      cases hc : chk c v0 with
      | false =>
        simp only [rvLoop, hp, hc, Bool.false_eq_true, if_false] at h
        rcases List.mem_cons.mp hs' with h' | h'
        · rw [h'] at hv'; rw [hv'] at hp
          cases hp; rw [hch'] at hc; cases hc
        · exact ih acc s v h s' v' h' hv' hch'
      | true =>
        rcases List.mem_cons.mp hs' with hhead | htail
        · -- the head element: show it does not beat the final result
          have hv0 : v' = v0 := by
            rw [hhead] at hv'; rw [hv'] at hp; exact Option.some.inj hp
          subst hv0
          cases acc with
          | none =>
            simp only [rvLoop, hp, hc, if_true] at h
            exact rvLoop_acc_no_beat parseVer chk gtV c hirr htrans rest s0 v' s v h
          | some p =>
            obtain ⟨bs, bv⟩ := p
            cases hg : gtV v' bv with
            | true =>
              simp only [rvLoop, hp, hc, hg, if_true] at h
              exact rvLoop_acc_no_beat parseVer chk gtV c hirr htrans rest s0 v' s v h
            | false =>
              simp only [rvLoop, hp, hc, hg, Bool.false_eq_true, if_false,
                if_true] at h
              have hbv := rvLoop_acc_no_beat parseVer chk gtV c hirr htrans rest bs bv s v h
              exact hneg v' bv v hg hbv
        · -- a later element: the induction hypothesis applies
          cases acc with
          | none =>
            simp only [rvLoop, hp, hc, if_true] at h
            exact ih (some (s0, v0)) s v h s' v' htail hv' hch'
          | some p =>
            obtain ⟨bs, bv⟩ := p
            cases hg : gtV v0 bv with
            | true =>
              simp only [rvLoop, hp, hc, hg, if_true] at h
              exact ih (some (s0, v0)) s v h s' v' htail hv' hch'
            | false =>
              simp only [rvLoop, hp, hc, hg, Bool.false_eq_true, if_false,
                if_true] at h
              exact ih (some (bs, bv)) s v h s' v' htail hv' hch'

/-- C5: `ResolveVersion` returns `dist-tags.latest` for the range
`"latest"` (erring when the tag is absent); for any other parsable range it
returns a key of the `versions` map that parses, satisfies the constraint,
and is beaten by no other satisfying key — the greatest satisfying version —
and it errs exactly when no key satisfies the range. -/
theorem resolveVersion_spec (hirr : ∀ a, gtV a a = false)
    (htrans : ∀ a b d, gtV a b = true → gtV b d = true → gtV a d = true)
    (hneg : ∀ a b d, gtV a b = false → gtV b d = false → gtV a d = false)
    (doc : PkgDoc) :
    (∀ v, doc.distTags.lookup "latest" = some v →
      resolveVersion parseVer parseCon chk gtV doc "latest" = .ok v) ∧
    (doc.distTags.lookup "latest" = none →
      resolveVersion parseVer parseCon chk gtV doc "latest" =
        .error "no latest dist-tag") ∧
    (∀ rng cc, rng ≠ "latest" → parseCon rng = some cc →
      (∀ s, resolveVersion parseVer parseCon chk gtV doc rng = .ok s →
        s ∈ doc.versions ∧ ∃ v, parseVer s = some v ∧ chk cc v = true ∧
          ∀ s' v', s' ∈ doc.versions → parseVer s' = some v' →
            chk cc v' = true → gtV v' v = false) ∧
      (resolveVersion parseVer parseCon chk gtV doc rng =
          .error "no version found matching range" ↔
        ∀ s ∈ doc.versions, ∀ v, parseVer s = some v → chk cc v = false)) := by
  refine ⟨?_, ?_, ?_⟩
  · intro v hv
    simp [resolveVersion, hv]
  · intro hv
    simp [resolveVersion, hv]
  · intro rng cc hrng hcc
    constructor
    · intro s hs
      simp only [resolveVersion, if_neg hrng, hcc] at hs
      cases hl : rvLoop parseVer chk gtV cc doc.versions none with
      | none => rw [hl] at hs; cases hs
      | some p =>
        obtain ⟨s1, v1⟩ := p
        rw [hl] at hs
        have hs1 : s1 = s := Except.ok.inj hs
        subst hs1
        rcases rvLoop_mem parseVer chk gtV cc doc.versions none s1 v1 hl with h' | ⟨hm, hv, hch⟩
        · cases h'
        · exact ⟨hm, v1, hv, hch,
            rvLoop_max parseVer chk gtV cc hirr htrans hneg doc.versions none s1 v1 hl⟩
    · constructor
      · intro herr
        simp only [resolveVersion, if_neg hrng, hcc] at herr
        cases hl : rvLoop parseVer chk gtV cc doc.versions none with
        | none => exact (rvLoop_none parseVer chk gtV cc doc.versions none hl).2
        | some p => rw [hl] at herr; obtain ⟨s1, v1⟩ := p; cases herr
      · intro hnone
        have hl := rvLoop_sat_none parseVer chk gtV cc doc.versions hnone
        simp [resolveVersion, if_neg hrng, hcc, hl]

end RV

/-- C5 witness: the theorem applied to the natural-number semver stand-in
and the document `docW`: `latest` resolves to `"9"`, and the range `"2"`
(lower bound 2) resolves to `"3"`, the greatest satisfying key. -/
theorem resolveVersion_spec_witness :
    resolveVersion natParseV natParseC natChk natGt docW "latest" = .ok "9" ∧
    ("3" ∈ docW.versions ∧ ∃ v, natParseV "3" = some v ∧ natChk 2 v = true ∧
      ∀ s' v', s' ∈ docW.versions → natParseV s' = some v' →
        natChk 2 v' = true → natGt v' v = false) := by
  have hirr : ∀ a, natGt a a = false := by intro a; simp [natGt]
  have htrans : ∀ a b d, natGt a b = true → natGt b d = true → natGt a d = true := by
    intro a b d h1 h2
    simp only [natGt, decide_eq_true_eq] at *
    omega
  have hneg : ∀ a b d, natGt a b = false → natGt b d = false → natGt a d = false := by
    intro a b d h1 h2
    simp only [natGt, decide_eq_false_iff_not] at *
    omega
  obtain ⟨h1, _, h3⟩ :=
    resolveVersion_spec natParseV natParseC natChk natGt hirr htrans hneg docW
  refine ⟨h1 "9" rfl, (h3 "2" 2 (by decide) (by decide)).1 "3" ?_⟩
  rfl

/-! ### Signature round-trip (C3) and verification policy (C6) -/

theorem lastSig_append_sig (es : List TarEnt) (b : Bytes) :
    lastSig (es ++ [⟨"signature.sig", b⟩]) = some b := by
  simp [lastSig, List.foldl_append]

theorem stripSig_append_sig (es : List TarEnt) (b : Bytes) :
    stripSig (es ++ [⟨"signature.sig", b⟩]) = stripSig es := by
  simp [stripSig, List.filter_append]

/-- C3 (amended): the round-trip `verify(sign(a, sk), pk) = Verified` holds
for a matching key pair exactly under the framing condition the code leaves
implicit: `signPackage` signs SHA-256 of the ORIGINAL archive bytes, while
`verifyTarball` hashes the RE-SERIALIZED signature-stripped archive, so the
round-trip succeeds when re-serializing the decoded entries reproduces the
original bytes (`hreser`), the codec reads back what it wrote (`hrt`), and
the archive has no `signature.sig` member of its own. -/
theorem signVerify_roundtrip (Cd : Codec) (R : RsaSig) (hash : Bytes → Bytes)
    (sk pk : Nat) (a : Bytes)
    (hkeys : ∀ h, R.verify pk h (R.sign sk h) = true)
    (hrt : Cd.dec (Cd.enc (Cd.dec a ++ [⟨"signature.sig", R.sign sk (hash a)⟩])) =
      Cd.dec a ++ [⟨"signature.sig", R.sign sk (hash a)⟩])
    (hnosig : stripSig (Cd.dec a) = Cd.dec a)
    (hreser : Cd.enc (Cd.dec a) = a) :
    verifyTarball Cd R hash pk (signPackage Cd R hash sk a) = .verified := by
  simp only [verifyTarball, signPackage, hrt, lastSig_append_sig,
    stripSig_append_sig, hnosig, hreser]
  simp [hkeys]

/-- C3 witness: the conditional round-trip applied to the toy codec and
scheme on the canonical archive `aCanon`, whose re-serialization is exact. -/
theorem signVerify_roundtrip_witness :
    verifyTarball toyCodec toyRsa id 7 (signPackage toyCodec toyRsa id 7 aCanon) =
      .verified :=
  signVerify_roundtrip toyCodec toyRsa id 7 7 aCanon
    (fun h => by simp [toyRsa]) (by decide) (by decide) (by decide)

/-- C3 counterexample: with the matching key pair `(7, 7)` (checked at the
digest actually signed), signing the archive `aShift` — which decodes to
the same entries as `aCanon` but whose bytes differ from their
re-serialization, as with a re-compressed gzip stream — and verifying the
result yields `badSignature`, not `Verified`: the signature was computed
over the original bytes while verification hashes the re-serialized
archive. -/
theorem sign_verify_cex :
    toyRsa.verify 7 aShift (toyRsa.sign 7 aShift) = true ∧
    verifyTarball toyCodec toyRsa id 7 (signPackage toyCodec toyRsa id 7 aShift) =
      .badSignature := by
  constructor
  · decide
  · decide

/-- C6: with no public key configured, `Install` performs no verification at
all; with one configured, an absent `signature.sig` (Unsigned) is a warning
and installation proceeds with a nil error, a verified signature proceeds,
and a failing RSA verification is a fatal error. -/
theorem verify_policy (Cd : Codec) (R : RsaSig) (hash : Bytes → Bytes)
    (pk : Nat) (b : Bytes) :
    installVerifyStep Cd R hash none b = (false, none) ∧
    (verifyTarball Cd R hash pk b = .unsigned →
      installVerifyStep Cd R hash (some pk) b = (true, none)) ∧
    (verifyTarball Cd R hash pk b = .verified →
      installVerifyStep Cd R hash (some pk) b = (true, none)) ∧
    (verifyTarball Cd R hash pk b = .badSignature →
      installVerifyStep Cd R hash (some pk) b =
        (true, some "package signature verification failed")) := by
  refine ⟨rfl, ?_, ?_, ?_⟩
  · intro h; simp [installVerifyStep, h]
  · intro h; simp [installVerifyStep, h]
  · intro h; simp [installVerifyStep, h]

/-- C6 witness: the policy theorem applied to the unsigned toy archive
`aCanon` — verification is skipped without a key, and with a key the
unsigned archive passes with a nil error. -/
theorem verify_policy_witness :
    installVerifyStep toyCodec toyRsa id none aCanon = (false, none) ∧
    verifyTarball toyCodec toyRsa id 7 aCanon = .unsigned ∧
    installVerifyStep toyCodec toyRsa id (some 7) aCanon = (true, none) := by
  have h := verify_policy toyCodec toyRsa id 7 aCanon
  exact ⟨h.1, by decide, h.2.1 (by decide)⟩

/-! ### Cache extraction safety (C4) and idempotence (C8) -/

/-- C4 (amended): directory entries create directories (mode 0755) and
regular-file entries create the parent and write the file with the header
mode, but every other tar entry type is silently skipped — the extraction
produces exactly the actions of the dir/reg entries and never rejects an
entry — and target paths are joined with `..` cleaning without any check
against the destination root. -/
theorem store_extract_amended (pkgPath : List String) (es : List UnpackEnt) :
    unpackActions pkgPath es =
      unpackActions pkgPath
        (es.filter fun e => e.typeflag == .dir || e.typeflag == .reg) ∧
    (∀ e ∈ es, e.typeflag = .dir →
      FsAction.mkdirAll (cleanAbs (pkgPath ++ dropPackageDir e.name)) 493 ∈
        unpackActions pkgPath es) ∧
    (∀ e ∈ es, e.typeflag = .reg →
      FsAction.writeFile (cleanAbs (pkgPath ++ dropPackageDir e.name)) e.mode e.body ∈
        unpackActions pkgPath es) := by
  refine ⟨?_, ?_, ?_⟩
  · induction es with
    | nil => rfl
    | cons e rest ih =>
      cases he : e.typeflag <;>
        simp [unpackActions, entryActions, List.filter_cons, he] at ih ⊢ <;>
        exact ih
  · intro e he hd
    refine List.mem_flatMap.mpr ⟨e, he, ?_⟩
    simp [entryActions, hd]
  · intro e he hr
    refine List.mem_flatMap.mpr ⟨e, he, ?_⟩
    simp [entryActions, hr]

/-- C4 witness: the amended extraction theorem applied to a concrete entry
list with a directory and a regular file under `package/`. -/
theorem store_extract_amended_witness :
    unpackActions c4root ([eDir, eReg, eSym].filter
      fun e => e.typeflag == .dir || e.typeflag == .reg) =
      unpackActions c4root [eDir, eReg, eSym] ∧
    FsAction.mkdirAll (cleanAbs (c4root ++ dropPackageDir eDir.name)) 493 ∈
      unpackActions c4root [eDir, eReg, eSym] ∧
    FsAction.writeFile (cleanAbs (c4root ++ dropPackageDir eReg.name)) eReg.mode
        eReg.body ∈
      unpackActions c4root [eDir, eReg, eSym] := by
  obtain ⟨h1, h2, h3⟩ := store_extract_amended c4root [eDir, eReg, eSym]
  exact ⟨h1.symm, h2 eDir (by simp) rfl, h3 eReg (by simp) rfl⟩

/-- C4 counterexample: storing a tarball with a symlink entry and a
`../evil` regular-file entry into an empty cache returns no error at all
(no `UnsafeArchive`): the symlink entry is silently skipped, and the
traversal entry produces a write whose cleaned path has escaped the
destination directory. -/
theorem store_unsafe_cex :
    (cacheStoreFs marshal0 c4root ⟨[], []⟩ pkgA [eSym, eEvil]).2.2 = none ∧
    entryActions (c4root ++ ["a-1.0"]) eSym = [] ∧
    FsAction.writeFile ["home", ".ipm", "cache", "evil"] 420 [1] ∈
      (cacheStoreFs marshal0 c4root ⟨[], []⟩ pkgA [eSym, eEvil]).2.1 ∧
    (c4root ++ ["a-1.0"]).isPrefixOf ["home", ".ipm", "cache", "evil"] = false := by
  refine ⟨by decide, by decide, by decide, by decide⟩

theorem applyAct_dirs_mem (fs : CacheFs) (a : FsAction) (p : List String)
    (h : p ∈ fs.dirs) : p ∈ (applyAct fs a).dirs := by
  cases a with
  | mkdirAll q m =>
    simp only [applyAct]
    split
    · exact h
    · exact List.mem_append.mpr (Or.inl h)
  | writeFile q m b => exact h

theorem foldl_applyAct_mem (acts : List FsAction) :
    ∀ (fs : CacheFs) (p : List String), p ∈ fs.dirs →
      p ∈ (acts.foldl applyAct fs).dirs := by
  induction acts with
  | nil => intro fs p h; exact h
  | cons a rest ih =>
    intro fs p h
    exact ih (applyAct fs a) p (applyAct_dirs_mem fs a p h)

/-- C8: `Store` is idempotent — after one `Store` of `(name, version)` the
cache directory exists, so a second `Store` with the same tarball returns
at once: it leaves the state exactly as the first call left it and performs
no write actions (neither to the package directory nor to the metadata
sidecar). -/
theorem store_idempotent (marshal : Pkg → Bytes) (root : List String)
    (fs : CacheFs) (pkg : Pkg) (es : List UnpackEnt) :
    cacheStoreFs marshal root (cacheStoreFs marshal root fs pkg es).1 pkg es =
      ((cacheStoreFs marshal root fs pkg es).1, [], none) := by
  have key : ∀ (s : CacheFs), (root ++ [pkg.name ++ "-" ++ pkg.version]) ∈ s.dirs →
      cacheStoreFs marshal root s pkg es = (s, [], none) := by
    intro s hs
    simp [cacheStoreFs, hs]
  by_cases h : (root ++ [pkg.name ++ "-" ++ pkg.version]) ∈ fs.dirs
  · have h1 : cacheStoreFs marshal root fs pkg es = (fs, [], none) := by
      simp [cacheStoreFs, h]
    rw [h1]
    exact key fs h
  · have hcb : fs.dirs.contains (root ++ [pkg.name ++ "-" ++ pkg.version]) = false := by
      simpa using h
    have hmem : (root ++ [pkg.name ++ "-" ++ pkg.version]) ∈
        (cacheStoreFs marshal root fs pkg es).1.dirs := by
      simp only [cacheStoreFs, hcb, Bool.false_eq_true, if_false, List.foldl_cons]
      refine foldl_applyAct_mem _ _ _ ?_
      simp [applyAct, h]
    exact key _ hmem

/-! ### Symlink projection (C7) -/

/-- C7 (amended): `Link` creates the symlink when the path is absent, is a
no-op when the path is already a symlink to the cache entry, removes and
recreates a symlink pointing elsewhere — but when the path exists as a
regular file it is NOT removed: the path is left unchanged and the symlink
creation fails with an error.  For every non-regular-file starting state a
second call is a no-op on the state produced by the first. -/
theorem link_behavior (cd : String) (pkg : Pkg) :
    cacheLink cd pkg .absent =
      (.symlinkTo (cd ++ "/" ++ pkg.name ++ "-" ++ pkg.version), none) ∧
    cacheLink cd pkg (.symlinkTo (cd ++ "/" ++ pkg.name ++ "-" ++ pkg.version)) =
      (.symlinkTo (cd ++ "/" ++ pkg.name ++ "-" ++ pkg.version), none) ∧
    (∀ t, t ≠ cd ++ "/" ++ pkg.name ++ "-" ++ pkg.version →
      cacheLink cd pkg (.symlinkTo t) =
        (.symlinkTo (cd ++ "/" ++ pkg.name ++ "-" ++ pkg.version), none)) ∧
    ((cacheLink cd pkg .regularFile).1 = .regularFile ∧
      (cacheLink cd pkg .regularFile).2.isSome = true) ∧
    (∀ st, st ≠ .regularFile →
      cacheLink cd pkg (cacheLink cd pkg st).1 = ((cacheLink cd pkg st).1, none)) := by
  refine ⟨rfl, by simp [cacheLink], ?_, ⟨rfl, rfl⟩, ?_⟩
  · intro t ht
    simp [cacheLink, ht]
  · intro st hst
    cases st with
    | absent => simp [cacheLink]
    | symlinkTo t =>
      by_cases ht : t = cd ++ "/" ++ pkg.name ++ "-" ++ pkg.version
      · simp [cacheLink, ht]
      · simp [cacheLink, ht]
    | regularFile => exact absurd rfl hst

/-- C7 witness: the link theorem applied to the concrete cache dir `/c`
and package `a@1.0`, with an existing symlink pointing elsewhere and with
a repeated call after creation. -/
theorem link_behavior_witness :
    cacheLink "/c" pkgA .absent = (.symlinkTo "/c/a-1.0", none) ∧
    cacheLink "/c" pkgA (.symlinkTo "/c/other") = (.symlinkTo "/c/a-1.0", none) ∧
    cacheLink "/c" pkgA (cacheLink "/c" pkgA .absent).1 =
      ((cacheLink "/c" pkgA .absent).1, none) := by
  obtain ⟨h1, _, h3, _, h5⟩ := link_behavior "/c" pkgA
  exact ⟨h1, h3 "/c/other" (by decide), h5 .absent (by decide)⟩

/-- C7 counterexample: when the project path exists as a regular file,
`Link` neither removes it nor creates a symlink — it returns an error and
leaves the regular file in place, refuting the removed-and-recreated
clause of the claim. -/
theorem link_regular_file_cex :
    cacheLink "/c" pkgA .regularFile = (.regularFile, some "symlink: file exists") ∧
    (cacheLink "/c" pkgA .regularFile).1 ≠ .symlinkTo "/c/a-1.0" := by
  exact ⟨rfl, by decide⟩

/-! ### Installer skip-on-different-version (C9) -/

/-- C9: when a package name is already recorded in the per-invocation
`installed` map at some version, an `installCachedDep` call for a different
version returns nil immediately with no effects and no state change; an
`Install` call that reaches the installed-map guard (cache miss, solver
success without conflicts, range resolution succeeding) likewise returns
nil with no store effect, no link effect, and the `installed`, cache and
link state unchanged — only the solver state has grown. -/
theorem install_skip_different_version (reg : Registry)
    (sat : String → String → Bool) (fuel : Nat) (st : InstState) (pkg : Pkg)
    (ev : String) (hin : st.installed.lookup pkg.name = some ev)
    (hne : ev ≠ pkg.version) :
    instRun reg sat (fuel + 1) st [ITask.cached pkg] = (st, [], none) ∧
    (∀ (s0 name v0 version tv ev' : String),
      parsePackageSpec s0 = (name, v0) →
      version = (if v0 = "" then "latest" else v0) →
      st.cacheDirs.contains (cacheKey name version) = false →
      (solveGo reg fuel st.solver [(name, version)]).2 = none →
      (solveGo reg fuel st.solver [(name, version)]).1.conflicts = [] →
      resolveRangeStep reg name version = .ok tv →
      st.installed.lookup name = some ev' →
      ev' ≠ tv →
      instRun reg sat (fuel + 1) st [ITask.spec s0] =
        ({ st with solver := (solveGo reg fuel st.solver [(name, version)]).1 },
         [], none)) := by
  constructor
  · simp only [instRun, hin]
  · intro s0 name v0 version tv ev' hparse hver hcache hsol hconf hrr hin' hne'
    subst hver
    simp only [instRun, hparse, hcache, Bool.false_eq_true, if_false, hsol,
      hconf, List.isEmpty_nil, Bool.not_true, hrr, hin']

/-- C9 witness: the skip theorem applied to the snapshot `regW` and the
state `stW`, in which `p` is installed at version `1`: both the cached-dep
call for `p@2` and the `Install` of `p@2` return nil with no effects. -/
theorem install_skip_different_version_witness :
    instRun regW satW 5 stW [ITask.cached ⟨"p", "2", []⟩] = (stW, [], none) ∧
    instRun regW satW 5 stW [ITask.spec "p@2"] =
      ({ stW with solver := (solveGo regW 4 stW.solver [("p", "2")]).1 },
       [], none) := by
  obtain ⟨h1, h2⟩ :=
    install_skip_different_version regW satW 4 stW ⟨"p", "2", []⟩ "1"
      (by decide) (by decide)
  exact ⟨h1, h2 "p@2" "p" "2" "2" "2" "1" (by decide) (by decide) (by decide)
    (by decide) (by decide) rfl (by decide) (by decide)⟩

end Ipm
